import Mathlib

/-!
Verification of the Q-Builder statevector simulator (simulator.js).

The JavaScript source is shallowly embedded as follows:
* JS floating-point numbers carrying amplitudes/probabilities are embedded as
  real numbers (`ℝ`); complex amplitudes `{re, im}` become the `Cplx` structure.
* A JS number used as a qubit index is embedded as `JNum := Option ℤ`:
  `some k` is an integer value, `none` stands for any non-integer (or missing)
  value, which is exactly the class rejected by every `Number.isInteger` check.
* The statevector `Array` of length `2^n` becomes a function `ℕ → Cplx`;
  kernels only touch indices `< 2^n`, mirroring the loops of the source.
* The copy-then-write loops of the kernels (`const out = state.slice(); ...`)
  are written as the equivalent per-index case split: an index pair `(i, i|mask)`
  written by the JS loop corresponds to the two `testBit` branches here.
* `Array.prototype.sort` with comparator `(a.tick||0)-(b.tick||0)` is a stable
  sort by tick, embedded with `List.insertionSort` (stable by construction).
* The seeded RNG `mulberry32` operates on 32-bit coercions; all its steps are
  congruent mod 2^32, so its state is tracked as a natural number mod 2^32.
  `Math.random` (the unseeded path) is an external entropy stream `ℕ → ℝ`
  stored inside the `RNG.external` constructor.
* JS `Map` (insertion ordered, `set`/`get`) becomes an association list.
-/

noncomputable section

/-- Complex amplitude `{re, im}` (simulator.js `C`). -/
structure Cplx where
  re : ℝ
  im : ℝ

/-- JS `C(re, im)` constructor from simulator.js. -/
def C (re im : ℝ) : Cplx := ⟨re, im⟩

/-- JS `cadd` from simulator.js. -/
def cadd (a b : Cplx) : Cplx := C (a.re + b.re) (a.im + b.im)

/-- JS `cmul` from simulator.js. -/
def cmul (a b : Cplx) : Cplx := C (a.re * b.re - a.im * b.im) (a.re * b.im + a.im * b.re)

/-- Squared magnitude `a.re*a.re + a.im*a.im` as computed for `probs`. -/
def normSq (z : Cplx) : ℝ := z.re * z.re + z.im * z.im

/-- A 2×2 complex matrix `[[m00, m01], [m10, m11]]`. -/
structure Mat2 where
  m00 : Cplx
  m01 : Cplx
  m10 : Cplx
  m11 : Cplx

def ONE : Cplx := C 1 0
def ZERO : Cplx := C 0 0

/-- X gate matrix. -/
def Mx : Mat2 := ⟨ZERO, ONE, ONE, ZERO⟩
/-- Y gate matrix `[[0,-i],[i,0]]`. -/
def My : Mat2 := ⟨ZERO, C 0 (-1), C 0 1, ZERO⟩
/-- Z gate matrix. -/
def Mz : Mat2 := ⟨ONE, ZERO, ZERO, C (-1) 0⟩
/-- H gate matrix, `s = 1/Math.SQRT2`. -/
def Mh : Mat2 := ⟨C (1 / Real.sqrt 2) 0, C (1 / Real.sqrt 2) 0,
                  C (1 / Real.sqrt 2) 0, C (-(1 / Real.sqrt 2)) 0⟩
/-- S gate matrix. -/
def Ms : Mat2 := ⟨ONE, ZERO, ZERO, C 0 1⟩
/-- T gate matrix, `Math.SQRT1_2 = √(1/2)`. -/
def Mt : Mat2 := ⟨ONE, ZERO, ZERO, C (Real.sqrt (1/2)) (Real.sqrt (1/2))⟩
/-- Rx(θ) matrix from simulator.js. -/
def Mrx (theta : ℝ) : Mat2 :=
  ⟨C (Real.cos (theta/2)) 0, C 0 (-Real.sin (theta/2)),
   C 0 (-Real.sin (theta/2)), C (Real.cos (theta/2)) 0⟩
/-- Ry(θ) matrix from simulator.js. -/
def Mry (theta : ℝ) : Mat2 :=
  ⟨C (Real.cos (theta/2)) 0, C (-Real.sin (theta/2)) 0,
   C (Real.sin (theta/2)) 0, C (Real.cos (theta/2)) 0⟩
/-- Rz(θ) matrix from simulator.js (`e^{-iθ/2}`, `e^{iθ/2}` on the diagonal). -/
def Mrz (theta : ℝ) : Mat2 :=
  ⟨C (Real.cos (-(theta/2))) (Real.sin (-(theta/2))), ZERO,
   ZERO, C (Real.cos (theta/2)) (Real.sin (theta/2))⟩

/-- A JS number used as a qubit index: `some k` an integer, `none` a
non-integer (fails `Number.isInteger`) or a missing array entry. -/
abbrev JNum := Option ℤ

/-- JS `t[k]` where `t = (op.targets || []).map(Number)`: an out-of-bounds read
gives `undefined`, which fails `Number.isInteger`, hence `none`. -/
def tgt (t : List JNum) (k : ℕ) : JNum := (t.get? k).getD none

/-- Named parameters object of an operation (`theta` for rotations,
`expect` for the postselect note). -/
structure Params where
  theta : Option ℝ
  expect : Option ℤ

/-- One IR operation: `{type, ref, targets, params, tick}` (a missing tick is
the JS `op.tick || 0`, represented by tick `0`). -/
structure Op where
  type : String
  ref : String
  targets : List JNum
  params : Params
  tick : ℤ

/-- The circuit part of the IR: declared qubit count (possibly negative or
zero for a missing field) and the operation list in input order. -/
structure Circuit where
  qubits : ℤ
  ops : List Op

/-- JS `valid2` from simulator.js. -/
def valid2 (n : ℕ) (a b : JNum) : Bool :=
  match a, b with
  | some x, some y => decide (0 ≤ x ∧ 0 ≤ y ∧ x < (n : ℤ) ∧ y < (n : ℤ) ∧ x ≠ y)
  | _, _ => false

/-- JS `valid3` from simulator.js (`new Set([a,b,c]).size === 3` plus the
integer/range checks). -/
def valid3 (n : ℕ) (a b c : JNum) : Bool :=
  match a, b, c with
  | some x, some y, some z =>
      decide (x ≠ y ∧ x ≠ z ∧ y ≠ z ∧
        (0 ≤ x ∧ x < (n : ℤ)) ∧ (0 ≤ y ∧ y < (n : ℤ)) ∧ (0 ≤ z ∧ z < (n : ℤ)))
  | _, _, _ => false

/-- JS `apply1(state, n, q, M)`: apply a 1-qubit matrix to target bit `q`.
The JS loop writes the pair `(out[i], out[i|mask])` for every `i` with bit
`q` clear; per index this is the `testBit` case split below. -/
def apply1 (state : ℕ → Cplx) (n : ℕ) (q : JNum) (M : Mat2) : ℕ → Cplx :=
  match q with
  | none => state
  | some qi =>
    if 0 ≤ qi ∧ qi < (n : ℤ) then
      let qn := qi.toNat
      fun i =>
        if i < 2^n then
          if i.testBit qn then
            cadd (cmul M.m10 (state (i ^^^ 2^qn))) (cmul M.m11 (state i))
          else
            cadd (cmul M.m00 (state i)) (cmul M.m01 (state (i ^^^ 2^qn)))
        else state i
    else state

/-- JS `applyCX`: swap amplitudes of target-flipped partners where the control
bit is set. -/
def applyCX (state : ℕ → Cplx) (n : ℕ) (control target : JNum) : ℕ → Cplx :=
  if valid2 n control target then
    let cn := (control.getD 0).toNat
    let tn := (target.getD 0).toNat
    fun i => if i < 2^n ∧ i.testBit cn then state (i ^^^ 2^tn) else state i
  else state

/-- JS `applyCY`: apply the `My` matrix to the pair where the control bit is set. -/
def applyCY (state : ℕ → Cplx) (n : ℕ) (control target : JNum) : ℕ → Cplx :=
  if valid2 n control target then
    let cn := (control.getD 0).toNat
    let tn := (target.getD 0).toNat
    fun i =>
      if i < 2^n ∧ i.testBit cn then
        if i.testBit tn then
          cadd (cmul My.m10 (state (i ^^^ 2^tn))) (cmul My.m11 (state i))
        else
          cadd (cmul My.m00 (state i)) (cmul My.m01 (state (i ^^^ 2^tn)))
      else state i
  else state

/-- JS `applyCZ`: negate the amplitude where both bits are set. -/
def applyCZ (state : ℕ → Cplx) (n : ℕ) (control target : JNum) : ℕ → Cplx :=
  if valid2 n control target then
    let cn := (control.getD 0).toNat
    let tn := (target.getD 0).toNat
    fun i =>
      if i < 2^n ∧ i.testBit cn ∧ i.testBit tn then
        C (-(state i).re) (-(state i).im)
      else state i
  else state

/-- JS `applySWAP`: swap amplitudes of indices whose two bits differ (each
unordered pair processed once in JS; per index this is one lookup).
The dead `q0 === q1` early return of the source is unreachable after
`valid2`, which already requires distinctness. -/
def applySWAP (state : ℕ → Cplx) (n : ℕ) (q0 q1 : JNum) : ℕ → Cplx :=
  if valid2 n q0 q1 then
    let x := (q0.getD 0).toNat
    let y := (q1.getD 0).toNat
    let a := min x y
    let b := max x y
    fun i =>
      if i < 2^n ∧ i.testBit a ≠ i.testBit b then state (i ^^^ (2^a ||| 2^b))
      else state i
  else state

/-- JS `applyCCX` (Toffoli). -/
def applyCCX (state : ℕ → Cplx) (n : ℕ) (c1 c2 target : JNum) : ℕ → Cplx :=
  if valid3 n c1 c2 target then
    let m1 := (c1.getD 0).toNat
    let m2 := (c2.getD 0).toNat
    let tn := (target.getD 0).toNat
    fun i =>
      if i < 2^n ∧ i.testBit m1 ∧ i.testBit m2 then state (i ^^^ 2^tn)
      else state i
  else state

/-- JS `applyCSWAP` (Fredkin). The dead `q0 === q1` early return of the source
is unreachable after `valid3`. -/
def applyCSWAP (state : ℕ → Cplx) (n : ℕ) (control q0 q1 : JNum) : ℕ → Cplx :=
  if valid3 n control q0 q1 then
    let cn := (control.getD 0).toNat
    let a := (q0.getD 0).toNat
    let b := (q1.getD 0).toNat
    fun i =>
      if i < 2^n ∧ i.testBit cn ∧ i.testBit a ≠ i.testBit b then
        state (i ^^^ (2^a ||| 2^b))
      else state i
  else state

/-- JS `String(op.ref || "").toUpperCase()` for the ASCII references of the IR:
uppercase every character (JS `toUpperCase` restricted to ASCII input). -/
def jsToUpper (r : String) : String := ⟨r.data.map Char.toUpper⟩

/-- Dispatch normalization: uppercase, then strip a leading `"GATE."`
(the `ref.startsWith("GATE.") ? ref.slice(5) : ref` step). -/
def refNormOf (r : String) : String :=
  match jsToUpper r with
  | ⟨'G' :: 'A' :: 'T' :: 'E' :: '.' :: rest⟩ => ⟨rest⟩
  | u => u

/-- The switch body of the evolution loop: given the normalized ref, the
mapped targets and the params of a `gate` op, produce the new state and the
new `entangledLikely` flag (set to `true` in every 2Q/3Q branch). -/
def evalGateCore (n : ℕ) (psi : ℕ → Cplx) (ent : Bool) (r : String)
    (t : List JNum) (p : Params) : (ℕ → Cplx) × Bool :=
  match r with
  | "X" => (apply1 psi n (tgt t 0) Mx, ent)
  | "Y" => (apply1 psi n (tgt t 0) My, ent)
  | "Z" => (apply1 psi n (tgt t 0) Mz, ent)
  | "H" => (apply1 psi n (tgt t 0) Mh, ent)
  | "S" => (apply1 psi n (tgt t 0) Ms, ent)
  | "T" => (apply1 psi n (tgt t 0) Mt, ent)
  | "RX" => (apply1 psi n (tgt t 0) (Mrx (p.theta.getD 0)), ent)
  | "RY" => (apply1 psi n (tgt t 0) (Mry (p.theta.getD 0)), ent)
  | "RZ" => (apply1 psi n (tgt t 0) (Mrz (p.theta.getD 0)), ent)
  | "CX" => (applyCX psi n (tgt t 0) (tgt t 1), true)
  | "CY" => (applyCY psi n (tgt t 0) (tgt t 1), true)
  | "CZ" => (applyCZ psi n (tgt t 0) (tgt t 1), true)
  | "SWAP" => (applySWAP psi n (tgt t 0) (tgt t 1), true)
  | "CCX" => (applyCCX psi n (tgt t 0) (tgt t 1) (tgt t 2), true)
  | "CCNOT" => (applyCCX psi n (tgt t 0) (tgt t 1) (tgt t 2), true)
  | "CSWAP" => (applyCSWAP psi n (tgt t 0) (tgt t 1) (tgt t 2), true)
  | _ => (psi, ent)

/-- One iteration of the evolution loop (`if (op.type !== "gate") continue;`). -/
def evolveStep (n : ℕ) (acc : (ℕ → Cplx) × Bool) (op : Op) : (ℕ → Cplx) × Bool :=
  if op.type == "gate" then
    evalGateCore n acc.1 acc.2 (refNormOf op.ref) op.targets op.params
  else acc

/-- The tick order of the sort comparator `(a.tick||0)-(b.tick||0)`. -/
def tickLE (a b : Op) : Prop := a.tick ≤ b.tick

instance : DecidableRel tickLE := fun a b => Int.decLe a.tick b.tick

instance : IsTotal Op tickLE := ⟨fun a b => Int.le_total a.tick b.tick⟩

instance : IsTrans Op tickLE := ⟨fun _ _ _ h1 h2 => le_trans h1 h2⟩

/-- JS `ops.slice().sort((a,b)=>(a.tick||0)-(b.tick||0))`: a stable sort by tick. -/
def sortOps (l : List Op) : List Op := List.insertionSort tickLE l

/-- The initial state `|0…0⟩`. -/
def initState : ℕ → Cplx := fun i => if i = 0 then C 1 0 else C 0 0

/-- JS `n = Math.max(ir?.circuit?.qubits ?? 0, 0)`. -/
def nOf (ir : Circuit) : ℕ := (max ir.qubits 0).toNat

/-- The evolution loop: state and `entangledLikely` flag after all ops. -/
def evolved (ir : Circuit) : (ℕ → Cplx) × Bool :=
  (sortOps ir.ops).foldl (evolveStep (nOf ir)) (initState, false)

/-- The post-selection note search predicate
`o.type === "note" && o.ref === "postselect"`. -/
def isPostNote (o : Op) : Bool := o.type == "note" && o.ref == "postselect"

/-- JS `ir?.circuit?.ops.find(...)` — note: runs on the unsorted input list. -/
def postNoteOf (ir : Circuit) : Option Op := ir.ops.find? isPostNote

/-- JS `Number(postNote.params?.expect ?? 1) ? 1 : 0`. -/
def expectVal (nt : Op) : ℕ :=
  match nt.params.expect with
  | none => 1
  | some e => if e = 0 then 0 else 1

/-- The retained probability mass accumulated by the `postSelectByBit` loop:
sum of squared magnitudes over indices whose bit `bn` equals `val`. -/
def postKeep (psi : ℕ → Cplx) (n bn val : ℕ) : ℝ :=
  ∑ i ∈ Finset.range (2^n),
    if (if i.testBit bn then 1 else 0) = val then normSq (psi i) else 0

/-- The zeroing pass of `postSelectByBit`: amplitudes whose bit does not
match the expected value are set to `C(0,0)`. -/
def postZero (psi : ℕ → Cplx) (n bn val : ℕ) : ℕ → Cplx :=
  fun i =>
    if i < 2^n ∧ (if i.testBit bn then 1 else 0) ≠ val then C 0 0 else psi i

/-- JS `postSelectByBit(psi, n, bit, expect)`: returns the (conceptually
mutated) state together with the JS return value (`null`, `0`, or `keep`). -/
def postSelectByBit (psi : ℕ → Cplx) (n : ℕ) (bit : JNum) (val : ℕ) :
    (ℕ → Cplx) × Option ℝ :=
  match bit with
  | none => (psi, none)
  | some b =>
    if 0 ≤ b ∧ b < (n : ℤ) then
      let bn := b.toNat
      let keep := postKeep psi n bn val
      let psiZ := postZero psi n bn val
      if keep ≤ 0 then (psiZ, some 0)
      else
        let norm := 1 / Real.sqrt keep
        (fun i => if i < 2^n then C ((psiZ i).re * norm) ((psiZ i).im * norm)
                  else psiZ i,
         some keep)
    else (psi, none)

/-- State and reported probability after the optional post-selection step of
`simulateCircuit`. -/
def postPair (ir : Circuit) : (ℕ → Cplx) × Option ℝ :=
  let psi := (evolved ir).1
  match postNoteOf ir with
  | some nt =>
    if 0 < nt.targets.length then
      postSelectByBit psi (nOf ir) (tgt nt.targets 0) (expectVal nt)
    else (psi, none)
  | none => (psi, none)

/-- JS `probs = psi.map(a => a.re*a.re + a.im*a.im)`. -/
def probsOf (ir : Circuit) : List ℝ :=
  (List.range (2^(nOf ir))).map fun i => normSq ((postPair ir).1 i)

/-- The returned amplitude array. -/
def ampsOf (ir : Circuit) : List Cplx :=
  (List.range (2^(nOf ir))).map (postPair ir).1

/-- JS `ops.filter(o => o.type === "gate").length` (on the sorted copy). -/
def gateCount (ir : Circuit) : ℕ :=
  ((sortOps ir.ops).filter (fun o => o.type == "gate")).length

/-- Readout-noise options object. -/
structure Noise where
  type : String
  p : Option ℝ
  prob : Option ℝ
  gamma : Option ℝ
  g : Option ℝ

/-- Simulation options: `shots` (any integer before the `Math.max(0,·)|0`
clamp), optional integer `seed`, optional `noise`. -/
structure Opts where
  shots : ℤ
  seed : Option ℤ
  noise : Option Noise

/-- RNG state: `seeded` holds the mulberry32 accumulator mod 2^32;
`external` is `Math.random`, an entropy stream with a read position. -/
inductive RNG where
  | seeded (a : ℕ)
  | external (k : ℕ) (e : ℕ → ℝ)

/-- One mulberry32 output computed from the post-increment accumulator
`t1 = a + 0x6D2B79F5 (mod 2^32)`; every JS 32-bit coercion is congruent to
reduction mod 2^32, so the pipeline is expressed on naturals. -/
def mulberryOut (t1 : ℕ) : ℝ :=
  let t2 := ((t1 ^^^ (t1 >>> 15)) * (t1 ||| 1)) % 4294967296
  let t3 := t2 ^^^ ((t2 + ((t2 ^^^ (t2 >>> 7)) * (t2 ||| 61)) % 4294967296) % 4294967296)
  (((t3 ^^^ (t3 >>> 14)) : ℕ) : ℝ) / 4294967296

/-- Draw one random value: the seeded generator advances its accumulator;
the unseeded one reads the next entropy value. -/
def nextRand (rng : RNG) : ℝ × RNG :=
  match rng with
  | .seeded a =>
    let a' := (a + 0x6D2B79F5) % 4294967296
    (mulberryOut a', .seeded a')
  | .external k e => (e k, .external (k+1) e)

/-- JS `mkRNG`: seeded `mulberry32(seed|0)` when a (finite) seed is given,
otherwise `Math.random` (the ambient entropy stream). -/
def mkRNG (seed : Option ℤ) (e : ℕ → ℝ) : RNG :=
  match seed with
  | some s => .seeded ((s % 4294967296).toNat)
  | none => .external 0 e

/-- JS `cdf[i] = p0 + … + pi` prefix sums (`acc` is the running total). -/
def prefixSums : List ℝ → ℝ → List ℝ
  | [], _ => []
  | p :: rest, acc => (acc + p) :: prefixSums rest (acc + p)

/-- JS `cdfFromProbs`: prefix sums, normalized by the total iff it is positive. -/
def cdfFromProbs (probs : List ℝ) : List ℝ :=
  let cdf := prefixSums probs 0
  let s := probs.sum
  if s > 0 then cdf.map (fun x => x / s) else cdf

/-- The binary-search loop of `sampleIdx` (`while (lo < hi) …`). -/
def sampleLoop (cdf : List ℝ) (r : ℝ) (lo hi : ℕ) : ℕ :=
  if _h : lo < hi then
    let mid := (lo + hi) / 2
    if cdf.getD mid 0 < r then sampleLoop cdf r (mid + 1) hi
    else sampleLoop cdf r lo mid
  else lo
termination_by hi - lo
decreasing_by
  · omega
  · omega

/-- JS `sampleIdx(cdf, r)`. -/
def sampleIdx (cdf : List ℝ) (r : ℝ) : ℕ := sampleLoop cdf r 0 (cdf.length - 1)

/-- JS `idx.toString(2).padStart(n, "0")`. -/
def bitString (n idx : ℕ) : String :=
  let s := Nat.toDigits 2 idx
  ⟨List.replicate (n - s.length) '0' ++ s⟩

/-- One bit of the readout-noise loop; returns the possibly corrupted
character and the advanced RNG (note amp-damp only draws when the bit is 1). -/
def noiseChar (nz : Noise) (c : Char) (rng : RNG) : Char × RNG :=
  if nz.type = "DEPOLARIZING" ∨ nz.type = "depolarizing" then
    let p := nz.p.getD (nz.prob.getD 0)
    let (r, rng') := nextRand rng
    (if r < p then (if c = '1' then '0' else '1') else c, rng')
  else if nz.type = "AMP-DAMP" ∨ nz.type = "amp-damp" then
    let g := nz.gamma.getD (nz.g.getD 0)
    if c = '1' then
      let (r, rng') := nextRand rng
      (if r < g then '0' else c, rng')
    else (c, rng)
  else (c, rng)

/-- JS `applyReadoutNoise(bits, noise, rand)`: per-character corruption of the
MSB-first bit string, threading the RNG. -/
def applyReadoutNoise (bits : String) (nz : Noise) (rng : RNG) : String × RNG :=
  if nz.type = "" then (bits, rng)
  else
    let step := fun (acc : List Char × RNG) (c : Char) =>
      let (c', rng') := noiseChar nz c acc.2
      (acc.1 ++ [c'], rng')
    let res := bits.data.foldl step ([], rng)
    (⟨res.1⟩, res.2)

/-- JS `counts.set(bits, (counts.get(bits) || 0) + 1)` on an insertion-ordered map. -/
def mapIncr : List (String × ℕ) → String → List (String × ℕ)
  | [], k => [(k, 1)]
  | (k', v) :: rest, k =>
    if k' = k then (k', v + 1) :: rest else (k', v) :: mapIncr rest k

/-- The shots loop: draw an index, render bits, apply noise when configured,
bump the counts map. -/
def shotsLoop (n : ℕ) (cdf : List ℝ) (noise : Option Noise) :
    ℕ → RNG → List (String × ℕ) → List (String × ℕ) × RNG
  | 0, rng, counts => (counts, rng)
  | k + 1, rng, counts =>
    let (r, rng1) := nextRand rng
    let idx := sampleIdx cdf r
    let bits := bitString n idx
    let (bits', rng2) :=
      match noise with
      | some nz => if nz.type ≠ "" then applyReadoutNoise bits nz rng1 else (bits, rng1)
      | none => (bits, rng1)
    shotsLoop n cdf noise k rng2 (mapIncr counts bits')

/-- The counts mapping (present iff `shots > 0`). -/
def countsOf (ir : Circuit) (opts : Opts) (entropy : ℕ → ℝ) :
    Option (List (String × ℕ)) :=
  let shots := (max 0 opts.shots).toNat
  if shots > 0 then
    some (shotsLoop (nOf ir) (cdfFromProbs (probsOf ir)) opts.noise shots
      (mkRNG opts.seed entropy) []).1
  else none

/-- The result object of `simulateCircuit`. -/
structure SimResult where
  qubits : ℕ
  ops : ℕ
  probs : List ℝ
  amps : List Cplx
  counts : Option (List (String × ℕ))
  entangledLikely : Bool
  postSelectProb : Option ℝ

/-- JS `simulateCircuit(ir, opts)`; `entropy` is the ambient `Math.random`
stream consulted only when no seed is given. -/
def simulateCircuit (ir : Circuit) (opts : Opts) (entropy : ℕ → ℝ) : SimResult :=
  { qubits := nOf ir
    ops := gateCount ir
    probs := probsOf ir
    amps := ampsOf ir
    counts := countsOf ir opts entropy
    entangledLikely := (evolved ir).2
    postSelectProb := (postPair ir).2 }

/-- The seven entangling-capable branch labels of the dispatch switch. -/
def isEntanglingRef (r : String) : Bool :=
  decide (r = "CX" ∨ r = "CY" ∨ r = "CZ" ∨ r = "SWAP" ∨
    r = "CCX" ∨ r = "CCNOT" ∨ r = "CSWAP")

/-- All sixteen recognized dispatch labels. -/
def isKnownRef (r : String) : Bool :=
  decide (r = "X" ∨ r = "Y" ∨ r = "Z" ∨ r = "H" ∨ r = "S" ∨ r = "T" ∨
    r = "RX" ∨ r = "RY" ∨ r = "RZ" ∨ r = "CX" ∨ r = "CY" ∨ r = "CZ" ∨
    r = "SWAP" ∨ r = "CCX" ∨ r = "CCNOT" ∨ r = "CSWAP")

/-- Total squared magnitude of the first `2^n` amplitudes. -/
def sumSq (n : ℕ) (psi : ℕ → Cplx) : ℝ :=
  ∑ i ∈ Finset.range (2^n), normSq (psi i)

/-- Column-orthonormality of a 2×2 matrix, written out on components: the
two columns are unit vectors and their Hermitian inner product vanishes. -/
def UnitaryCols (M : Mat2) : Prop :=
  normSq M.m00 + normSq M.m10 = 1 ∧
  normSq M.m01 + normSq M.m11 = 1 ∧
  M.m00.re * M.m01.re + M.m00.im * M.m01.im
    + M.m10.re * M.m11.re + M.m10.im * M.m11.im = 0 ∧
  M.m00.im * M.m01.re - M.m00.re * M.m01.im
    + M.m10.im * M.m11.re - M.m10.re * M.m11.im = 0

/-- Two operations that the simulator cannot distinguish: identical except
possibly in the reference string, which must normalize identically; for
non-gate operations the reference must agree exactly (the postselect note
search compares it verbatim). -/
def OpSim (o o' : Op) : Prop :=
  o.type = o'.type ∧ o.tick = o'.tick ∧ o.targets = o'.targets ∧
  o.params = o'.params ∧ refNormOf o.ref = refNormOf o'.ref ∧
  (o.type = "gate" ∨ o.ref = o'.ref)

/-! ### Concrete inputs used to exercise the definitions -/

/-- H gate on qubit 0 (tick 0). -/
def opH : Op := ⟨"gate", "H", [some 0], ⟨none, none⟩, 0⟩

/-- CX with control 0, target 1 (tick 1). -/
def opCX : Op := ⟨"gate", "CX", [some 0, some 1], ⟨none, none⟩, 1⟩

/-- The same H op spelled with the namespaced lowercase ref. -/
def opHns : Op := ⟨"gate", "gate.h", [some 0], ⟨none, none⟩, 0⟩

/-- X gate on qubit 0 (tick 0). -/
def opX : Op := ⟨"gate", "X", [some 0], ⟨none, none⟩, 0⟩

/-- A gate op with an unrecognized reference. -/
def opFoo : Op := ⟨"gate", "FOO", [some 0], ⟨none, none⟩, 0⟩

/-- A postselect note on qubit 0 expecting bit value 0 (tick 1). -/
def notePS0 : Op := ⟨"note", "postselect", [some 0], ⟨none, some 0⟩, 1⟩

/-- A postselect note on qubit 0 expecting bit value 1, late tick. -/
def notePS1 : Op := ⟨"note", "postselect", [some 0], ⟨none, some 1⟩, 10⟩

/-- The Bell circuit: H on qubit 0 then CX(0,1) on 2 qubits. -/
def bellCircuit : Circuit := ⟨2, [opH, opCX]⟩

/-- X on qubit 0 then a zero-mass postselect (expect 0 after X) on 1 qubit. -/
def psCircuit : Circuit := ⟨1, [opX, notePS0]⟩

/-- Analytic-only options: no shots, no seed, no noise. -/
def opts0 : Opts := ⟨0, none, none⟩

/-- A trivial entropy stream. -/
def entropy0 : ℕ → ℝ := fun _ => 0

/-- The all-zero amplitude function. -/
def zeroPsi : ℕ → Cplx := fun _ => C 0 0

/-! ### Component lemmas for complex arithmetic -/

theorem C_re (x y : ℝ) : (C x y).re = x := rfl

theorem C_im (x y : ℝ) : (C x y).im = y := rfl

theorem cadd_re (a b : Cplx) : (cadd a b).re = a.re + b.re := rfl

theorem cadd_im (a b : Cplx) : (cadd a b).im = a.im + b.im := rfl

theorem cmul_re (a b : Cplx) : (cmul a b).re = a.re * b.re - a.im * b.im := rfl

theorem cmul_im (a b : Cplx) : (cmul a b).im = a.re * b.im + a.im * b.re := rfl

/-- The central algebraic fact: a column-orthonormal 2×2 matrix preserves
the squared magnitude of an amplitude pair. -/
theorem pair_normSq (M : Mat2) (hM : UnitaryCols M) (a b : Cplx) :
    normSq (cadd (cmul M.m00 a) (cmul M.m01 b))
      + normSq (cadd (cmul M.m10 a) (cmul M.m11 b))
      = normSq a + normSq b := by
  obtain ⟨h1, h2, h3, h4⟩ := hM
  simp only [normSq, cadd_re, cadd_im, cmul_re, cmul_im] at h1 h2 h3 h4 ⊢
  linear_combination (a.re*a.re + a.im*a.im) * h1 + (b.re*b.re + b.im*b.im) * h2
    + (2*(a.re*b.re + a.im*b.im)) * h3 - (2*(a.im*b.re - a.re*b.im)) * h4

theorem Mx_unitary : UnitaryCols Mx := by
  norm_num [UnitaryCols, normSq, Mx, ONE, ZERO, C_re, C_im]

theorem My_unitary : UnitaryCols My := by
  norm_num [UnitaryCols, normSq, My, ZERO, C_re, C_im]

theorem Mz_unitary : UnitaryCols Mz := by
  norm_num [UnitaryCols, normSq, Mz, ONE, ZERO, C_re, C_im]

theorem inv_sqrt2_mul_self : (Real.sqrt 2)⁻¹ * (Real.sqrt 2)⁻¹ = (2:ℝ)⁻¹ := by
  rw [← mul_inv, Real.mul_self_sqrt (by norm_num : (0:ℝ) ≤ 2)]

theorem Mh_unitary : UnitaryCols Mh := by
  norm_num [UnitaryCols, normSq, Mh, C_re, C_im, inv_sqrt2_mul_self]

theorem Ms_unitary : UnitaryCols Ms := by
  norm_num [UnitaryCols, normSq, Ms, ONE, ZERO, C_re, C_im]

theorem Mt_unitary : UnitaryCols Mt := by
  norm_num [UnitaryCols, normSq, Mt, ONE, ZERO, C_re, C_im, inv_sqrt2_mul_self]

theorem Mrx_unitary (theta : ℝ) : UnitaryCols (Mrx theta) := by
  have h := Real.sin_sq_add_cos_sq (theta/2)
  refine ⟨?_, ?_, ?_, ?_⟩ <;> simp only [Mrx, normSq, C_re, C_im]
  · linear_combination h
  · linear_combination h
  · ring
  · ring

theorem Mry_unitary (theta : ℝ) : UnitaryCols (Mry theta) := by
  have h := Real.sin_sq_add_cos_sq (theta/2)
  refine ⟨?_, ?_, ?_, ?_⟩ <;> simp only [Mry, normSq, C_re, C_im]
  · linear_combination h
  · linear_combination h
  · ring
  · ring

theorem Mrz_unitary (theta : ℝ) : UnitaryCols (Mrz theta) := by
  have h1 := Real.sin_sq_add_cos_sq (-(theta/2))
  have h2 := Real.sin_sq_add_cos_sq (theta/2)
  refine ⟨?_, ?_, ?_, ?_⟩ <;> simp only [Mrz, normSq, ZERO, C_re, C_im]
  · linear_combination h1
  · linear_combination h2
  · ring
  · ring

/-! ### Sum-rearrangement helpers -/

/-- Splitting a sum over a set closed under toggling bit `q` into sums over
sibling pairs. -/
theorem sum_split_bit (s : Finset ℕ) (q : ℕ)
    (hcl : ∀ i ∈ s, i ^^^ 2^q ∈ s) (f : ℕ → ℝ) :
    ∑ i ∈ s, f i
      = ∑ i ∈ s.filter (fun i => i.testBit q = false), (f i + f (i ^^^ 2^q)) := by
  rw [Finset.sum_add_distrib]
  have key : ∑ i ∈ s.filter (fun i => i.testBit q = false), f (i ^^^ 2^q)
      = ∑ i ∈ s.filter (fun i => ¬ (i.testBit q = false)), f i := by
    refine Finset.sum_nbij' (fun i => i ^^^ 2^q) (fun i => i ^^^ 2^q) ?_ ?_ ?_ ?_ ?_
    · intro a ha
      simp only [Finset.mem_filter] at ha ⊢
      refine ⟨hcl a ha.1, ?_⟩
      simp [Nat.testBit_xor, ha.2, Nat.testBit_two_pow_self]
    · intro a ha
      simp only [Finset.mem_filter] at ha ⊢
      have h : a.testBit q = true := by
        rcases Bool.eq_false_or_eq_true (a.testBit q) with hh | hh
        · exact hh
        · exact absurd hh ha.2
      exact ⟨hcl a ha.1, by simp [Nat.testBit_xor, h, Nat.testBit_two_pow_self]⟩
    · intro a _; exact Nat.xor_cancel_right _ _
    · intro a _; exact Nat.xor_cancel_right _ _
    · intro a _; rfl
  rw [key, Finset.sum_filter_add_sum_filter_not]

/-- Reindexing a sum along an involution of the index set. -/
theorem sum_invol (s : Finset ℕ) (sg : ℕ → ℕ)
    (hmem : ∀ i ∈ s, sg i ∈ s) (hinv : ∀ i ∈ s, sg (sg i) = i) (f : ℕ → ℝ) :
    ∑ i ∈ s, f (sg i) = ∑ i ∈ s, f i :=
  Finset.sum_nbij' sg sg hmem hmem hinv hinv (fun _ _ => rfl)

/-! ### Kernel facts -/

theorem valid2_spec {n : ℕ} {a b : JNum} (h : valid2 n a b = true) :
    ∃ x y : ℤ, a = some x ∧ b = some y ∧
      0 ≤ x ∧ 0 ≤ y ∧ x < (n : ℤ) ∧ y < (n : ℤ) ∧ x ≠ y := by
  match a, b with
  | some x, some y =>
    simp only [valid2, decide_eq_true_eq] at h
    exact ⟨x, y, rfl, rfl, h.1, h.2.1, h.2.2.1, h.2.2.2.1, h.2.2.2.2⟩
  | some _, none => simp [valid2] at h
  | none, _ => simp [valid2] at h

theorem valid3_spec {n : ℕ} {a b c : JNum} (h : valid3 n a b c = true) :
    ∃ x y z : ℤ, a = some x ∧ b = some y ∧ c = some z ∧
      x ≠ y ∧ x ≠ z ∧ y ≠ z ∧
      (0 ≤ x ∧ x < (n : ℤ)) ∧ (0 ≤ y ∧ y < (n : ℤ)) ∧ (0 ≤ z ∧ z < (n : ℤ)) := by
  match a, b, c with
  | some x, some y, some z =>
    simp only [valid3, decide_eq_true_eq] at h
    exact ⟨x, y, z, rfl, rfl, rfl, h.1, h.2.1, h.2.2.1, h.2.2.2.1, h.2.2.2.2.1,
      h.2.2.2.2.2⟩
  | some _, some _, none => simp [valid3] at h
  | some _, none, _ => simp [valid3] at h
  | none, _, _ => simp [valid3] at h

/-- A state permuted by "xor with a mask `m` on a region cut out by a
mask-invariant predicate" keeps its total squared magnitude. -/
theorem sumSq_perm_xor (psi : ℕ → Cplx) (n m : ℕ) (hm : m < 2^n)
    (P : ℕ → Prop) [DecidablePred P]
    (hP : ∀ i, i < 2^n → (P (i ^^^ m) ↔ P i)) :
    (∑ i ∈ Finset.range (2^n),
      normSq (if i < 2^n ∧ P i then psi (i ^^^ m) else psi i)) = sumSq n psi := by
  have hpt : ∀ i, (if i < 2^n ∧ P i then psi (i ^^^ m) else psi i)
      = psi (if i < 2^n ∧ P i then i ^^^ m else i) := by
    intro i
    exact (apply_ite psi _ _ _).symm
  calc ∑ i ∈ Finset.range (2^n),
        normSq (if i < 2^n ∧ P i then psi (i ^^^ m) else psi i)
      = ∑ i ∈ Finset.range (2^n),
          normSq (psi (if i < 2^n ∧ P i then i ^^^ m else i)) := by
        exact Finset.sum_congr rfl (fun i _ => by rw [hpt])
    _ = ∑ i ∈ Finset.range (2^n), normSq (psi i) := by
        refine sum_invol (Finset.range (2^n))
          (fun i => if i < 2^n ∧ P i then i ^^^ m else i) ?_ ?_
          (fun j => normSq (psi j))
        · intro i hi
          dsimp only
          simp only [Finset.mem_range] at hi ⊢
          by_cases hc : i < 2^n ∧ P i
          · rw [if_pos hc]; exact Nat.xor_lt_two_pow hi hm
          · rw [if_neg hc]; exact hi
        · intro i hi
          dsimp only
          simp only [Finset.mem_range] at hi
          by_cases hc : i < 2^n ∧ P i
          · rw [if_pos hc]
            have hx : i ^^^ m < 2^n := Nat.xor_lt_two_pow hi hm
            have hPx : P (i ^^^ m) := (hP i hi).mpr hc.2
            rw [if_pos ⟨hx, hPx⟩, Nat.xor_cancel_right]
          · rw [if_neg hc, if_neg hc]
    _ = sumSq n psi := rfl

theorem apply1_sumSq (psi : ℕ → Cplx) (n : ℕ) (q : JNum) (M : Mat2)
    (hM : UnitaryCols M) : sumSq n (apply1 psi n q M) = sumSq n psi := by
  match q with
  | none => rfl
  | some qi =>
    by_cases hq : 0 ≤ qi ∧ qi < (n : ℤ)
    · have hqn : qi.toNat < n := by omega
      have hpow : (2:ℕ)^qi.toNat < 2^n := Nat.pow_lt_pow_right (by norm_num) hqn
      have hmem : ∀ i ∈ Finset.range (2^n),
          i ^^^ 2^qi.toNat ∈ Finset.range (2^n) := by
        intro i hi
        simp only [Finset.mem_range] at hi ⊢
        exact Nat.xor_lt_two_pow hi hpow
      simp only [apply1, hq, and_self, if_true]
      rw [sumSq, sumSq, sum_split_bit _ qi.toNat hmem,
        sum_split_bit _ qi.toNat hmem (fun i => normSq (psi i))]
      apply Finset.sum_congr rfl
      intro i hi
      simp only [Finset.mem_filter, Finset.mem_range] at hi
      obtain ⟨hilt, hbit⟩ := hi
      have hxlt : i ^^^ 2^qi.toNat < 2^n := Nat.xor_lt_two_pow hilt hpow
      have hbit2 : (i ^^^ 2^qi.toNat).testBit qi.toNat = true := by
        simp [Nat.testBit_xor, hbit, Nat.testBit_two_pow_self]
      have hcan : (i ^^^ 2^qi.toNat) ^^^ 2^qi.toNat = i := Nat.xor_cancel_right _ _
      simp only [hilt, hxlt, hbit, hbit2, hcan, eq_self_iff_true, if_true,
        Bool.false_eq_true, if_false]
      exact pair_normSq M hM _ _
    · simp only [apply1]
      rw [if_neg hq]

theorem applyCX_sumSq (psi : ℕ → Cplx) (n : ℕ) (c t : JNum) :
    sumSq n (applyCX psi n c t) = sumSq n psi := by
  by_cases hv : valid2 n c t = true
  · obtain ⟨x, y, hc, ht, hx0, hy0, hxn, hyn, hxy⟩ := valid2_spec hv
    subst hc; subst ht
    have hcn : x.toNat < n := by omega
    have htn : y.toNat < n := by omega
    have hne : y.toNat ≠ x.toNat := by omega
    have hpow : (2:ℕ)^y.toNat < 2^n := Nat.pow_lt_pow_right (by norm_num) htn
    simp only [applyCX, hv, if_true, Option.getD_some]
    rw [sumSq]
    apply sumSq_perm_xor psi n _ hpow
    intro i _
    simp [Nat.testBit_xor, Nat.testBit_two_pow_of_ne hne]
  · simp only [applyCX]
    rw [if_neg (by simp [hv])]

theorem applyCZ_sumSq (psi : ℕ → Cplx) (n : ℕ) (c t : JNum) :
    sumSq n (applyCZ psi n c t) = sumSq n psi := by
  by_cases hv : valid2 n c t = true
  · obtain ⟨x, y, hc, ht, _, _, _, _, _⟩ := valid2_spec hv
    subst hc; subst ht
    simp only [applyCZ, hv, if_true, Option.getD_some]
    rw [sumSq, sumSq]
    apply Finset.sum_congr rfl
    intro i _
    by_cases hcond : i < 2^n ∧ i.testBit x.toNat ∧ i.testBit y.toNat
    · rw [if_pos hcond]
      simp only [normSq, C_re, C_im]
      ring
    · rw [if_neg hcond]
  · simp only [applyCZ]
    rw [if_neg (by simp [hv])]

theorem applySWAP_sumSq (psi : ℕ → Cplx) (n : ℕ) (q0 q1 : JNum) :
    sumSq n (applySWAP psi n q0 q1) = sumSq n psi := by
  by_cases hv : valid2 n q0 q1 = true
  · obtain ⟨x, y, hc, ht, hx0, hy0, hxn, hyn, hxy⟩ := valid2_spec hv
    subst hc; subst ht
    have hxn' : x.toNat < n := by omega
    have hyn' : y.toNat < n := by omega
    have hab : min x.toNat y.toNat ≠ max x.toNat y.toNat := by omega
    have han : min x.toNat y.toNat < n := by omega
    have hbn : max x.toNat y.toNat < n := by omega
    have hpa : (2:ℕ)^(min x.toNat y.toNat) < 2^n :=
      Nat.pow_lt_pow_right (by norm_num) han
    have hpb : (2:ℕ)^(max x.toNat y.toNat) < 2^n :=
      Nat.pow_lt_pow_right (by norm_num) hbn
    have hor : (2:ℕ)^(min x.toNat y.toNat) ||| 2^(max x.toNat y.toNat) < 2^n :=
      Nat.or_lt_two_pow hpa hpb
    simp only [applySWAP, hv, if_true, Option.getD_some]
    rw [sumSq]
    apply sumSq_perm_xor psi n _ hor
    intro i _
    have hta : ((2:ℕ)^(min x.toNat y.toNat)
        ||| 2^(max x.toNat y.toNat)).testBit (min x.toNat y.toNat) = true := by
      simp [Nat.testBit_or, Nat.testBit_two_pow_self]
    have htb : ((2:ℕ)^(min x.toNat y.toNat)
        ||| 2^(max x.toNat y.toNat)).testBit (max x.toNat y.toNat) = true := by
      simp [Nat.testBit_or, Nat.testBit_two_pow_self]
    constructor
    · intro h
      simp only [Nat.testBit_xor, hta, htb] at h
      simpa using h
    · intro h
      simp only [Nat.testBit_xor, hta, htb]
      simpa using h
  · simp only [applySWAP]
    rw [if_neg (by simp [hv])]

theorem applyCCX_sumSq (psi : ℕ → Cplx) (n : ℕ) (c1 c2 t : JNum) :
    sumSq n (applyCCX psi n c1 c2 t) = sumSq n psi := by
  by_cases hv : valid3 n c1 c2 t = true
  · obtain ⟨x, y, z, hc1, hc2, ht, hxy, hxz, hyz, hxr, hyr, hzr⟩ := valid3_spec hv
    subst hc1; subst hc2; subst ht
    have hzn : z.toNat < n := by omega
    have hne1 : z.toNat ≠ x.toNat := by omega
    have hne2 : z.toNat ≠ y.toNat := by omega
    have hpow : (2:ℕ)^z.toNat < 2^n := Nat.pow_lt_pow_right (by norm_num) hzn
    simp only [applyCCX, hv, if_true, Option.getD_some]
    rw [sumSq]
    apply sumSq_perm_xor psi n _ hpow
    intro i _
    simp [Nat.testBit_xor, Nat.testBit_two_pow_of_ne hne1,
      Nat.testBit_two_pow_of_ne hne2]
  · simp only [applyCCX]
    rw [if_neg (by simp [hv])]

theorem applyCSWAP_sumSq (psi : ℕ → Cplx) (n : ℕ) (c q0 q1 : JNum) :
    sumSq n (applyCSWAP psi n c q0 q1) = sumSq n psi := by
  by_cases hv : valid3 n c q0 q1 = true
  · obtain ⟨x, y, z, hc1, hc2, ht, hxy, hxz, hyz, hxr, hyr, hzr⟩ := valid3_spec hv
    subst hc1; subst hc2; subst ht
    have hyn : y.toNat < n := by omega
    have hzn : z.toNat < n := by omega
    have hnyx : y.toNat ≠ x.toNat := by omega
    have hnzx : z.toNat ≠ x.toNat := by omega
    have hpy : (2:ℕ)^y.toNat < 2^n := Nat.pow_lt_pow_right (by norm_num) hyn
    have hpz : (2:ℕ)^z.toNat < 2^n := Nat.pow_lt_pow_right (by norm_num) hzn
    have hor : (2:ℕ)^y.toNat ||| 2^z.toNat < 2^n := Nat.or_lt_two_pow hpy hpz
    simp only [applyCSWAP, hv, if_true, Option.getD_some]
    rw [sumSq]
    apply sumSq_perm_xor psi n _ hor
    intro i _
    have hmx : ((2:ℕ)^y.toNat ||| 2^z.toNat).testBit x.toNat = false := by
      simp [Nat.testBit_or, Nat.testBit_two_pow_of_ne hnyx,
        Nat.testBit_two_pow_of_ne hnzx]
    have hmy : ((2:ℕ)^y.toNat ||| 2^z.toNat).testBit y.toNat = true := by
      simp [Nat.testBit_or, Nat.testBit_two_pow_self]
    have hmz : ((2:ℕ)^y.toNat ||| 2^z.toNat).testBit z.toNat = true := by
      simp [Nat.testBit_or, Nat.testBit_two_pow_self]
    constructor
    · intro h
      obtain ⟨h1, h2⟩ := h
      simp only [Nat.testBit_xor, hmx, hmy, hmz] at h1 h2
      refine ⟨by simpa using h1, ?_⟩
      revert h2
      cases i.testBit y.toNat <;> cases i.testBit z.toNat <;> simp
    · intro h
      obtain ⟨h1, h2⟩ := h
      refine ⟨by simp [Nat.testBit_xor, hmx, h1], ?_⟩
      simp only [Nat.testBit_xor, hmy, hmz]
      revert h2
      cases i.testBit y.toNat <;> cases i.testBit z.toNat <;> simp
  · simp only [applyCSWAP]
    rw [if_neg (by simp [hv])]

theorem applyCY_sumSq (psi : ℕ → Cplx) (n : ℕ) (c t : JNum) :
    sumSq n (applyCY psi n c t) = sumSq n psi := by
  by_cases hv : valid2 n c t = true
  · obtain ⟨x, y, hc, ht, hx0, hy0, hxn, hyn, hxy⟩ := valid2_spec hv
    subst hc; subst ht
    have htn : y.toNat < n := by omega
    have hne : y.toNat ≠ x.toNat := by omega
    have hpow : (2:ℕ)^y.toNat < 2^n := Nat.pow_lt_pow_right (by norm_num) htn
    simp only [applyCY, hv, if_true, Option.getD_some]
    rw [sumSq, sumSq]
    have key1 : ∀ (G : ℕ → ℝ), ∑ i ∈ Finset.range (2^n), G i
        = (∑ i ∈ (Finset.range (2^n)).filter
            (fun i => i.testBit x.toNat = true), G i)
          + ∑ i ∈ (Finset.range (2^n)).filter
              (fun i => ¬ (i.testBit x.toNat = true)), G i :=
      fun G => (Finset.sum_filter_add_sum_filter_not _ _ G).symm
    rw [key1, key1 (fun i => normSq (psi i))]
    have hmem' : ∀ i ∈ (Finset.range (2^n)).filter
        (fun i => i.testBit x.toNat = true),
        i ^^^ 2^y.toNat ∈ (Finset.range (2^n)).filter
          (fun i => i.testBit x.toNat = true) := by
      intro i hi
      simp only [Finset.mem_filter, Finset.mem_range] at hi ⊢
      exact ⟨Nat.xor_lt_two_pow hi.1 hpow,
        by simp [Nat.testBit_xor, Nat.testBit_two_pow_of_ne hne, hi.2]⟩
    congr 1
    · rw [sum_split_bit _ y.toNat hmem',
        sum_split_bit _ y.toNat hmem' (fun i => normSq (psi i))]
      apply Finset.sum_congr rfl
      intro i hi
      simp only [Finset.mem_filter, Finset.mem_range] at hi
      obtain ⟨⟨hilt, hctrl⟩, hbit⟩ := hi
      have hxlt : i ^^^ 2^y.toNat < 2^n := Nat.xor_lt_two_pow hilt hpow
      have hctrl2 : (i ^^^ 2^y.toNat).testBit x.toNat = true := by
        simp [Nat.testBit_xor, Nat.testBit_two_pow_of_ne hne, hctrl]
      have hbit2 : (i ^^^ 2^y.toNat).testBit y.toNat = true := by
        simp [Nat.testBit_xor, hbit, Nat.testBit_two_pow_self]
      have hcan : (i ^^^ 2^y.toNat) ^^^ 2^y.toNat = i := Nat.xor_cancel_right _ _
      simp only [hilt, hxlt, hctrl, hctrl2, hbit, hbit2, hcan, eq_self_iff_true,
        and_self, if_true, Bool.false_eq_true, if_false, true_and]
      exact pair_normSq My My_unitary _ _
    · apply Finset.sum_congr rfl
      intro i hi
      simp only [Finset.mem_filter, Finset.mem_range] at hi
      rw [if_neg]
      intro hcond
      exact hi.2 hcond.2
  · simp only [applyCY]
    rw [if_neg (by simp [hv])]

/-! ### Evolution-loop lemmas -/

theorem evalGateCore_sumSq (n : ℕ) (psi : ℕ → Cplx) (ent : Bool) (r : String)
    (t : List JNum) (p : Params) :
    sumSq n (evalGateCore n psi ent r t p).1 = sumSq n psi := by
  unfold evalGateCore
  split
  all_goals dsimp only
  case h_1 => exact apply1_sumSq _ _ _ _ Mx_unitary
  case h_2 => exact apply1_sumSq _ _ _ _ My_unitary
  case h_3 => exact apply1_sumSq _ _ _ _ Mz_unitary
  case h_4 => exact apply1_sumSq _ _ _ _ Mh_unitary
  case h_5 => exact apply1_sumSq _ _ _ _ Ms_unitary
  case h_6 => exact apply1_sumSq _ _ _ _ Mt_unitary
  case h_7 => exact apply1_sumSq _ _ _ _ (Mrx_unitary _)
  case h_8 => exact apply1_sumSq _ _ _ _ (Mry_unitary _)
  case h_9 => exact apply1_sumSq _ _ _ _ (Mrz_unitary _)
  case h_10 => exact applyCX_sumSq _ _ _ _
  case h_11 => exact applyCY_sumSq _ _ _ _
  case h_12 => exact applyCZ_sumSq _ _ _ _
  case h_13 => exact applySWAP_sumSq _ _ _ _
  case h_14 => exact applyCCX_sumSq _ _ _ _ _
  case h_15 => exact applyCCX_sumSq _ _ _ _ _
  case h_16 => exact applyCSWAP_sumSq _ _ _ _ _

theorem evolveStep_sumSq (n : ℕ) (acc : (ℕ → Cplx) × Bool) (op : Op) :
    sumSq n (evolveStep n acc op).1 = sumSq n acc.1 := by
  unfold evolveStep
  by_cases h : (op.type == "gate") = true
  · rw [if_pos h]
    exact evalGateCore_sumSq n acc.1 acc.2 (refNormOf op.ref) op.targets op.params
  · rw [if_neg h]

theorem evolveFold_sumSq (n : ℕ) :
    ∀ (l : List Op) (acc : (ℕ → Cplx) × Bool),
      sumSq n (l.foldl (evolveStep n) acc).1 = sumSq n acc.1
  | [], _ => rfl
  | op :: l, acc => by
    rw [List.foldl_cons, evolveFold_sumSq n l, evolveStep_sumSq]

theorem sumSq_initState (n : ℕ) : sumSq n initState = 1 := by
  rw [sumSq]
  have hpt : ∀ i, normSq (initState i) = if i = 0 then 1 else 0 := by
    intro i
    by_cases h : i = 0 <;> simp [initState, h, normSq, C_re, C_im]
  simp only [hpt]
  rw [Finset.sum_ite_eq' (Finset.range (2^n)) 0 (fun _ => (1:ℝ))]
  simp [Finset.mem_range, Nat.pos_pow_of_pos]

theorem evalGateCore_flag (n : ℕ) (psi : ℕ → Cplx) (ent : Bool) (r : String)
    (t : List JNum) (p : Params) :
    (evalGateCore n psi ent r t p).2 = (ent || isEntanglingRef r) := by
  unfold evalGateCore
  split
  all_goals dsimp only
  all_goals try simp [isEntanglingRef]
  rename_i hX hY hZ hH hS hT hRX hRY hRZ hCX hCY hCZ hSW hCCX hCCNOT hCSW
  intro hd
  rcases hd with h | h | h | h | h | h | h
  exacts [(hCX h).elim, (hCY h).elim, (hCZ h).elim, (hSW h).elim,
    (hCCX h).elim, (hCCNOT h).elim, (hCSW h).elim]

theorem evalGateCore_unknown (n : ℕ) (psi : ℕ → Cplx) (ent : Bool) (r : String)
    (t : List JNum) (p : Params) (h : isKnownRef r = false) :
    evalGateCore n psi ent r t p = (psi, ent) := by
  unfold evalGateCore
  split
  all_goals first
    | rfl
    | exact absurd h (by decide)

theorem evolveStep_flag (n : ℕ) (acc : (ℕ → Cplx) × Bool) (op : Op) :
    (evolveStep n acc op).2
      = (acc.2 || (op.type == "gate" && isEntanglingRef (refNormOf op.ref))) := by
  unfold evolveStep
  by_cases h : (op.type == "gate") = true
  · rw [if_pos h, h, Bool.true_and]
    exact evalGateCore_flag n acc.1 acc.2 (refNormOf op.ref) op.targets op.params
  · rw [if_neg h]
    have h' : (op.type == "gate") = false := by
      revert h
      cases op.type == "gate" <;> simp
    rw [h', Bool.false_and, Bool.or_false]

theorem evolveFold_flag (n : ℕ) :
    ∀ (l : List Op) (acc : (ℕ → Cplx) × Bool),
      (l.foldl (evolveStep n) acc).2
        = (acc.2 || l.any (fun op => op.type == "gate"
            && isEntanglingRef (refNormOf op.ref)))
  | [], acc => by simp
  | op :: l, acc => by
    rw [List.foldl_cons, evolveFold_flag n l, evolveStep_flag]
    simp [Bool.or_assoc]

/-! ### Stable-sort and list auxiliaries -/

theorem filter_orderedInsert_neg (p : Op → Bool) (a : Op) (hp : p a = false) :
    ∀ l : List Op, (List.orderedInsert tickLE a l).filter p = l.filter p
  | [] => by simp [List.orderedInsert, List.filter_cons, hp]
  | b :: l => by
    rw [List.orderedInsert]
    by_cases h : tickLE a b
    · rw [if_pos h]
      simp [List.filter_cons, hp]
    · rw [if_neg h]
      simp only [List.filter_cons]
      cases hb : p b
      · exact filter_orderedInsert_neg p a hp l
      · rw [filter_orderedInsert_neg p a hp l]

theorem orderedInsert_of_forall_le (a : Op) :
    ∀ m : List Op, (∀ y ∈ m, tickLE a y) → List.orderedInsert tickLE a m = a :: m
  | [], _ => rfl
  | c :: m, hc => by
    rw [List.orderedInsert, if_pos (hc c (by simp))]

theorem filter_orderedInsert_pos (p : Op → Bool) (a : Op) (hp : p a = true) :
    ∀ l : List Op, l.Sorted tickLE →
      (List.orderedInsert tickLE a l).filter p
        = List.orderedInsert tickLE a (l.filter p)
  | [], _ => by simp [List.orderedInsert, List.filter_cons, hp]
  | b :: l, hs => by
    have hs' : l.Sorted tickLE := (List.pairwise_cons.mp hs).2
    have hbl : ∀ y ∈ l, tickLE b y := (List.pairwise_cons.mp hs).1
    rw [List.orderedInsert]
    by_cases hab : tickLE a b
    · rw [if_pos hab]
      cases hb : p b
      · have hall : ∀ y ∈ l.filter p, tickLE a y := fun y hy =>
          le_trans hab (hbl y (List.mem_of_mem_filter hy))
        simp only [List.filter_cons, hp, hb, if_true, Bool.false_eq_true, if_false]
        rw [orderedInsert_of_forall_le a (l.filter p) hall]
      · simp only [List.filter_cons, hp, hb, if_true]
        rw [List.orderedInsert, if_pos hab]
    · rw [if_neg hab]
      cases hb : p b
      · simp only [List.filter_cons, hb, Bool.false_eq_true, if_false]
        exact filter_orderedInsert_pos p a hp l hs'
      · simp only [List.filter_cons, hb, if_true]
        rw [filter_orderedInsert_pos p a hp l hs', List.orderedInsert, if_neg hab]

theorem filter_insertionSort (p : Op → Bool) :
    ∀ l : List Op,
      (List.insertionSort tickLE l).filter p
        = List.insertionSort tickLE (l.filter p)
  | [] => rfl
  | a :: l => by
    rw [List.insertionSort]
    cases ha : p a
    · rw [filter_orderedInsert_neg p a ha, filter_insertionSort p l]
      simp [List.filter_cons, ha]
    · rw [filter_orderedInsert_pos p a ha _ (List.sorted_insertionSort tickLE l),
        filter_insertionSort p l]
      simp [List.filter_cons, ha, List.insertionSort]

theorem any_perm {l1 l2 : List Op} (h : l1.Perm l2) (f : Op → Bool) :
    l1.any f = l2.any f := by
  cases hb : l2.any f
  · rw [List.any_eq_false] at hb ⊢
    intro x hx
    exact hb x (h.mem_iff.mp hx)
  · rw [List.any_eq_true] at hb ⊢
    obtain ⟨x, hx, hfx⟩ := hb
    exact ⟨x, h.mem_iff.mpr hx, hfx⟩

theorem foldl_evolveStep_filter (n : ℕ) :
    ∀ (l : List Op) (acc : (ℕ → Cplx) × Bool),
      l.foldl (evolveStep n) acc
        = (l.filter (fun o => o.type == "gate")).foldl (evolveStep n) acc
  | [], _ => rfl
  | op :: l, acc => by
    rw [List.foldl_cons, List.filter_cons]
    by_cases h : (op.type == "gate") = true
    · rw [if_pos h, List.foldl_cons]
      exact foldl_evolveStep_filter n l (evolveStep n acc op)
    · have hstep : evolveStep n acc op = acc := by
        unfold evolveStep
        rw [if_neg h]
      rw [if_neg h, hstep]
      exact foldl_evolveStep_filter n l acc

theorem gateCount_eq (ir : Circuit) :
    gateCount ir = (ir.ops.filter (fun o => o.type == "gate")).length := by
  rw [gateCount]
  show ((List.insertionSort tickLE ir.ops).filter _).length = _
  rw [filter_insertionSort]
  exact (List.perm_insertionSort tickLE _).length_eq

/-! ### Claim C1 -/

/-- C1: every evolution-loop step (each gate kernel, including the no-op
branches for invalid or unknown operations) preserves the sum over all
amplitudes of `re^2 + im^2`, and consequently for every circuit
representation the statevector produced by the evolution loop — starting as
1 at index 0 and 0 elsewhere — has squared magnitudes summing to 1
immediately after evolution, before any post-selection or sampling step. -/
theorem c1_evolution_preserves_norm :
    (∀ (n : ℕ) (acc : (ℕ → Cplx) × Bool) (op : Op),
      sumSq n (evolveStep n acc op).1 = sumSq n acc.1) ∧
    (∀ ir : Circuit, sumSq (nOf ir) (evolved ir).1 = 1) := by
  constructor
  · exact fun n acc op => evolveStep_sumSq n acc op
  · intro ir
    rw [evolved, evolveFold_sumSq, sumSq_initState]

/-! ### Claim C7 -/

/-- C7: the `entangledLikely` flag returned by `simulateCircuit` is true
exactly when some operation of the list is a gate dispatched to one of the
2- or 3-qubit kernels (CX, CY, CZ, SWAP, CCX/CCNOT, CSWAP); it is false for
circuits containing only single-qubit gates, unrecognized gates, or no
gates at all. -/
theorem c7_entangled_flag (ir : Circuit) (opts : Opts) (e : ℕ → ℝ) :
    (simulateCircuit ir opts e).entangledLikely
      = ir.ops.any (fun op => op.type == "gate"
          && isEntanglingRef (refNormOf op.ref)) := by
  show (evolved ir).2 = _
  rw [evolved, evolveFold_flag, Bool.false_or]
  exact any_perm (List.perm_insertionSort tickLE ir.ops) _

/-! ### Claim C10 -/

/-- C10: a gate operation whose normalized reference matches no supported
gate leaves the statevector (and the flag) unchanged via the default
dispatch branch, yet the `ops` field of the result still counts every
operation of type "gate", recognized or not, valid targets or not. -/
theorem c10_unknown_gate_counted :
    (∀ (n : ℕ) (acc : (ℕ → Cplx) × Bool) (op : Op),
      op.type = "gate" → isKnownRef (refNormOf op.ref) = false →
      evolveStep n acc op = acc) ∧
    (∀ (ir : Circuit) (opts : Opts) (e : ℕ → ℝ),
      (simulateCircuit ir opts e).ops
        = (ir.ops.filter (fun o => o.type == "gate")).length) := by
  constructor
  · intro n acc op hty hunk
    unfold evolveStep
    rw [if_pos (by simp [hty])]
    rw [evalGateCore_unknown _ _ _ _ _ _ hunk]
  · intro ir opts e
    show gateCount ir = _
    exact gateCount_eq ir

/-- Witness for C10: a concrete unknown gate is a state no-op but is counted. -/
theorem c10_unknown_gate_counted_witness :
    evolveStep 1 (zeroPsi, false) opFoo = (zeroPsi, false) ∧
    (simulateCircuit ⟨1, [opFoo]⟩ opts0 entropy0).ops = 1 := by
  constructor
  · exact c10_unknown_gate_counted.1 1 (zeroPsi, false) opFoo rfl (by decide)
  · exact c10_unknown_gate_counted.2 ⟨1, [opFoo]⟩ opts0 entropy0

/-! ### Claim C4 -/

/-- C4: every kernel given malformed targets — a non-integer target, an
out-of-range target (in particular `q = n`), or (for the 2- and 3-qubit
kernels) targets failing the `valid2`/`valid3` check, which also enforces
pairwise distinctness — returns the statevector unchanged. -/
theorem c4_invalid_target_noop :
    (∀ (psi : ℕ → Cplx) (n : ℕ) (M : Mat2), apply1 psi n none M = psi) ∧
    (∀ (psi : ℕ → Cplx) (n : ℕ) (qi : ℤ) (M : Mat2),
      qi < 0 ∨ (n : ℤ) ≤ qi → apply1 psi n (some qi) M = psi) ∧
    (∀ (psi : ℕ → Cplx) (n : ℕ) (a b : JNum),
      valid2 n a b = false → applyCX psi n a b = psi) ∧
    (∀ (psi : ℕ → Cplx) (n : ℕ) (a b : JNum),
      valid2 n a b = false → applyCY psi n a b = psi) ∧
    (∀ (psi : ℕ → Cplx) (n : ℕ) (a b : JNum),
      valid2 n a b = false → applyCZ psi n a b = psi) ∧
    (∀ (psi : ℕ → Cplx) (n : ℕ) (a b : JNum),
      valid2 n a b = false → applySWAP psi n a b = psi) ∧
    (∀ (psi : ℕ → Cplx) (n : ℕ) (a b c : JNum),
      valid3 n a b c = false → applyCCX psi n a b c = psi) ∧
    (∀ (psi : ℕ → Cplx) (n : ℕ) (a b c : JNum),
      valid3 n a b c = false → applyCSWAP psi n a b c = psi) := by
  refine ⟨fun _ _ _ => rfl, ?_, ?_, ?_, ?_, ?_, ?_, ?_⟩
  · intro psi n qi M h
    simp only [apply1]
    rw [if_neg (by omega)]
  · intro psi n a b h
    unfold applyCX
    rw [if_neg (by simp [h])]
  · intro psi n a b h
    unfold applyCY
    rw [if_neg (by simp [h])]
  · intro psi n a b h
    unfold applyCZ
    rw [if_neg (by simp [h])]
  · intro psi n a b h
    unfold applySWAP
    rw [if_neg (by simp [h])]
  · intro psi n a b c h
    unfold applyCCX
    rw [if_neg (by simp [h])]
  · intro psi n a b c h
    unfold applyCSWAP
    rw [if_neg (by simp [h])]

/-- Witness for C4: concrete invalid targets (q = n, a repeated control,
a non-distinct triple) leave a concrete state unchanged. -/
theorem c4_invalid_target_noop_witness :
    apply1 zeroPsi 1 (some 1) Mx = zeroPsi ∧
    apply1 zeroPsi 2 none Mh = zeroPsi ∧
    applyCX zeroPsi 2 (some 0) (some 0) = zeroPsi ∧
    applyCY zeroPsi 2 (some 0) (some 2) = zeroPsi ∧
    applyCZ zeroPsi 2 (some (-1)) (some 1) = zeroPsi ∧
    applySWAP zeroPsi 2 (some 1) (some 1) = zeroPsi ∧
    applyCCX zeroPsi 3 (some 0) (some 1) (some 1) = zeroPsi ∧
    applyCSWAP zeroPsi 3 (some 0) (some 1) (some 3) = zeroPsi := by
  refine ⟨c4_invalid_target_noop.2.1 _ _ _ _ (Or.inr (by norm_num)),
    c4_invalid_target_noop.1 _ _ _,
    c4_invalid_target_noop.2.2.1 _ _ _ _ (by decide),
    c4_invalid_target_noop.2.2.2.1 _ _ _ _ (by decide),
    c4_invalid_target_noop.2.2.2.2.1 _ _ _ _ (by decide),
    c4_invalid_target_noop.2.2.2.2.2.1 _ _ _ _ (by decide),
    c4_invalid_target_noop.2.2.2.2.2.2.1 _ _ _ _ _ (by decide),
    c4_invalid_target_noop.2.2.2.2.2.2.2 _ _ _ _ _ (by decide)⟩

/-! ### Claim C3 -/

/-- C3: with any finite integer seed, any circuit, any (possibly positive)
shot count and any noise option, the whole simulation result — in
particular the counts mapping (same keys, same count per key, here even the
same insertion order) — is independent of the ambient `Math.random`
entropy: the sampling and noise path is a deterministic function of its
inputs through the seeded mulberry32 generator. -/
theorem c3_seeded_determinism (ir : Circuit) (shots : ℤ) (seed : ℤ)
    (noise : Option Noise) (e1 e2 : ℕ → ℝ) :
    simulateCircuit ir ⟨shots, some seed, noise⟩ e1
      = simulateCircuit ir ⟨shots, some seed, noise⟩ e2 := rfl

/-! ### Claim C2 -/

/-- C2: `simulateCircuit` on the 2-qubit circuit "H on qubit 0, then
CX(control 0, target 1)" from the all-zero state returns probability 1/2
at basis indices 0 and 3, probability 0 at indices 1 and 2, and
`entangledLikely = true`. -/
theorem c2_bell_circuit :
    (simulateCircuit bellCircuit opts0 entropy0).probs = [1/2, 0, 0, 1/2] ∧
    (simulateCircuit bellCircuit opts0 entropy0).entangledLikely = true := by
  constructor
  · have hsq : (Real.sqrt 2)⁻¹ * (Real.sqrt 2)⁻¹ = (2:ℝ)⁻¹ := inv_sqrt2_mul_self
    have hpsi : (postPair bellCircuit).1
        = applyCX (apply1 initState 2 (some 0) Mh) 2 (some 0) (some 1) := rfl
    show probsOf bellCircuit = _
    rw [probsOf, hpsi]
    have h02 : (0 ^^^ 2 : ℕ) = 2 := by decide
    have h12 : (1 ^^^ 2 : ℕ) = 3 := by decide
    have h32 : (3 ^^^ 2 : ℕ) = 1 := by decide
    have h01 : (0 ^^^ 1 : ℕ) = 1 := by decide
    have h21 : (2 ^^^ 1 : ℕ) = 3 := by decide
    show List.map _ [0, 1, 2, 3] = _
    norm_num [applyCX, apply1, initState, Mh, cadd, cmul, C, valid2, normSq,
      Nat.testBit, h02, h12, h32, h01, h21]
    norm_num [C_re, C_im, hsq]
  · rfl

/-! ### Sampling lemmas and Claim C6 -/

theorem prefixSums_all_zero :
    ∀ (l : List ℝ), (∀ p ∈ l, p = 0) →
      ∀ acc : ℝ, prefixSums l acc = List.replicate l.length acc
  | [], _, _ => rfl
  | p :: l, h, acc => by
    have hp : p = 0 := h p (by simp)
    simp only [prefixSums, hp, add_zero, List.length_cons, List.replicate_succ]
    rw [prefixSums_all_zero l (fun q hq => h q (by simp [hq])) acc]

theorem cdfFromProbs_all_zero (l : List ℝ) (h : ∀ p ∈ l, p = 0) :
    cdfFromProbs l = List.replicate l.length 0 := by
  have hsum : l.sum = 0 := List.sum_eq_zero h
  simp only [cdfFromProbs]
  rw [prefixSums_all_zero l h 0, hsum, if_neg (by norm_num)]

theorem getD_replicate_zero : ∀ (m k : ℕ),
    (List.replicate m (0:ℝ)).getD k 0 = 0
  | 0, 0 => rfl
  | 0, _ + 1 => rfl
  | _ + 1, 0 => rfl
  | m + 1, k + 1 => getD_replicate_zero m k

theorem sampleLoop_zero_pos (cdf : List ℝ) (hz : ∀ k, cdf.getD k 0 = 0)
    (r : ℝ) (hr : 0 < r) :
    ∀ (d lo hi : ℕ), lo ≤ hi → hi - lo ≤ d → sampleLoop cdf r lo hi = hi := by
  intro d
  induction d with
  | zero =>
    intro lo hi hle hd
    have heq : lo = hi := by omega
    subst heq
    unfold sampleLoop
    rw [dif_neg (by omega)]
  | succ d ih =>
    intro lo hi hle hd
    by_cases h : lo < hi
    · unfold sampleLoop
      rw [dif_pos h]
      have hmid1 : (lo + hi) / 2 < hi := by omega
      have hmid2 : lo ≤ (lo + hi) / 2 := by omega
      rw [if_pos (by rw [hz]; exact hr)]
      exact ih ((lo + hi) / 2 + 1) hi (by omega) (by omega)
    · unfold sampleLoop
      rw [dif_neg h]
      omega

theorem sampleLoop_zero_nonpos (cdf : List ℝ) (hz : ∀ k, cdf.getD k 0 = 0)
    (r : ℝ) (hr : r ≤ 0) :
    ∀ (d lo hi : ℕ), hi - lo ≤ d → sampleLoop cdf r lo hi = lo := by
  intro d
  induction d with
  | zero =>
    intro lo hi hd
    unfold sampleLoop
    rw [dif_neg (by omega)]
  | succ d ih =>
    intro lo hi hd
    by_cases h : lo < hi
    · unfold sampleLoop
      rw [dif_pos h]
      have hmid1 : (lo + hi) / 2 < hi := by omega
      have hmid2 : lo ≤ (lo + hi) / 2 := by omega
      rw [if_neg (by rw [hz]; exact not_lt.mpr hr)]
      exact ih lo ((lo + hi) / 2) (by omega)
    · unfold sampleLoop
      rw [dif_neg h]

/-- C6 counterexample: on the identically-zero two-entry probability vector,
the cumulative distribution is all-zero, but drawing a sample with the
random value 1/2 ∈ [0,1) resolves to basis index 1, not 0. -/
theorem c6_counterexample :
    ((0:ℝ) ≤ 1/2 ∧ (1/2:ℝ) < 1) ∧
    cdfFromProbs [(0:ℝ), 0] = [0, 0] ∧
    sampleIdx (cdfFromProbs [(0:ℝ), 0]) (1/2) = 1 ∧
    sampleIdx (cdfFromProbs [(0:ℝ), 0]) (1/2) ≠ 0 := by
  have hc : cdfFromProbs [(0:ℝ), 0] = [0, 0] := by
    norm_num [cdfFromProbs, prefixSums]
  have hs : sampleIdx (cdfFromProbs [(0:ℝ), 0]) (1/2) = 1 := by
    rw [hc, sampleIdx]
    show sampleLoop [(0:ℝ), 0] (1/2) 0 1 = 1
    unfold sampleLoop
    rw [dif_pos (by norm_num)]
    norm_num
    unfold sampleLoop
    rw [dif_neg (by norm_num)]
  exact ⟨⟨by norm_num, by norm_num⟩, hc, hs, by rw [hs]; norm_num⟩

/-- C6 amended: whenever the probability vector is identically zero, the
cumulative distribution built from it is all-zero, and drawing a sample
resolves to the LAST basis index (length − 1) for every random value
r with 0 < r, and to index 0 only when r ≤ 0. -/
theorem c6_zero_probs_sampling (probs : List ℝ) (h : ∀ p ∈ probs, p = 0) :
    cdfFromProbs probs = List.replicate probs.length 0 ∧
    (∀ r : ℝ, 0 < r → sampleIdx (cdfFromProbs probs) r = probs.length - 1) ∧
    (∀ r : ℝ, r ≤ 0 → sampleIdx (cdfFromProbs probs) r = 0) := by
  have hc := cdfFromProbs_all_zero probs h
  refine ⟨hc, ?_, ?_⟩
  · intro r hr
    rw [sampleIdx, hc, List.length_replicate]
    exact sampleLoop_zero_pos _ (getD_replicate_zero _) r hr
      probs.length 0 (probs.length - 1) (by omega) (by omega)
  · intro r hr
    rw [sampleIdx, hc, List.length_replicate]
    exact sampleLoop_zero_nonpos _ (getD_replicate_zero _) r hr
      probs.length 0 (probs.length - 1) (by omega)

/-- Witness for the amended C6 at the concrete vector [0, 0]. -/
theorem c6_zero_probs_sampling_witness :
    cdfFromProbs [(0:ℝ), 0] = List.replicate 2 0 ∧
    sampleIdx (cdfFromProbs [(0:ℝ), 0]) (1/2) = 1 ∧
    sampleIdx (cdfFromProbs [(0:ℝ), 0]) 0 = 0 := by
  have h := c6_zero_probs_sampling [(0:ℝ), 0]
    (by intro p hp; simp at hp; exact hp)
  exact ⟨h.1, by simpa using h.2.1 (1/2) (by norm_num), h.2.2 0 le_rfl⟩

/-! ### Claim C5 -/

theorem normSq_nonneg (z : Cplx) : 0 ≤ normSq z :=
  add_nonneg (mul_self_nonneg _) (mul_self_nonneg _)

/-- C5: when the operation list contains a postselect note (the first such
note found on the unsorted list) on an in-range qubit whose expected bit
value has zero probability mass in the evolved state, `simulateCircuit`
reports `postSelectProb = 0` and every returned amplitude is zero — the
zero-mass branch applies no renormalization. -/
theorem c5_zero_mass_postselect (ir : Circuit) (opts : Opts) (e : ℕ → ℝ)
    (nt : Op) (b : ℤ)
    (hfind : postNoteOf ir = some nt)
    (hlen : 0 < nt.targets.length)
    (hbit : tgt nt.targets 0 = some b)
    (hb0 : 0 ≤ b) (hbn : b < (nOf ir : ℤ))
    (hmass : postKeep (evolved ir).1 (nOf ir) b.toNat (expectVal nt) = 0) :
    (simulateCircuit ir opts e).postSelectProb = some 0 ∧
    (simulateCircuit ir opts e).amps
      = List.replicate (2^(nOf ir)) (C 0 0) := by
  have hpair : postPair ir
      = (postZero (evolved ir).1 (nOf ir) b.toNat (expectVal nt), some 0) := by
    rw [postPair]
    rw [hfind]
    show (if 0 < nt.targets.length then _ else _) = _
    rw [if_pos hlen, hbit]
    simp only [postSelectByBit]
    rw [if_pos ⟨hb0, hbn⟩, hmass]
    rw [if_pos le_rfl]
  have hzero : ∀ i, i < 2^(nOf ir) →
      postZero (evolved ir).1 (nOf ir) b.toNat (expectVal nt) i = C 0 0 := by
    intro i hi
    rw [postZero]
    by_cases hcond : i < 2^(nOf ir)
        ∧ (if i.testBit b.toNat then 1 else 0) ≠ expectVal nt
    · rw [if_pos hcond]
    · rw [if_neg hcond]
      have hval : (if i.testBit b.toNat then 1 else 0) = expectVal nt := by
        by_contra hne
        exact hcond ⟨hi, hne⟩
      have hterm : ∀ j ∈ Finset.range (2^(nOf ir)),
          0 ≤ (if (if j.testBit b.toNat then 1 else 0) = expectVal nt
               then normSq ((evolved ir).1 j) else 0) := by
        intro j _
        by_cases hj : (if j.testBit b.toNat then 1 else 0) = expectVal nt
        · rw [if_pos hj]; exact normSq_nonneg _
        · rw [if_neg hj]
      have hi0 := (Finset.sum_eq_zero_iff_of_nonneg hterm).mp hmass i
        (Finset.mem_range.mpr hi)
      rw [if_pos hval] at hi0
      have h1 : ((evolved ir).1 i).re = 0 := by
        have := normSq_nonneg ((evolved ir).1 i)
        rw [normSq] at hi0
        nlinarith [mul_self_nonneg ((evolved ir).1 i).re,
          mul_self_nonneg ((evolved ir).1 i).im]
      have h2 : ((evolved ir).1 i).im = 0 := by
        rw [normSq] at hi0
        nlinarith [mul_self_nonneg ((evolved ir).1 i).re,
          mul_self_nonneg ((evolved ir).1 i).im]
      calc (evolved ir).1 i
          = C ((evolved ir).1 i).re ((evolved ir).1 i).im := rfl
        _ = C 0 0 := by rw [h1, h2]
  constructor
  · show (postPair ir).2 = some 0
    rw [hpair]
  · show ampsOf ir = _
    rw [ampsOf, hpair]
    refine List.eq_replicate_iff.mpr ⟨by simp, ?_⟩
    intro z hz
    rw [List.mem_map] at hz
    obtain ⟨i, hi, rfl⟩ := hz
    rw [List.mem_range] at hi
    exact hzero i hi

/-- Witness for C5: X on qubit 0 of a 1-qubit circuit, then postselect
expecting bit 0 — mass zero, so postSelectProb = 0, amplitudes all zero. -/
theorem c5_zero_mass_postselect_witness :
    (simulateCircuit psCircuit opts0 entropy0).postSelectProb = some 0 ∧
    (simulateCircuit psCircuit opts0 entropy0).amps
      = List.replicate (2^(nOf psCircuit)) (C 0 0) := by
  have h01 : (0 ^^^ 1 : ℕ) = 1 := by decide
  have h11 : (1 ^^^ 1 : ℕ) = 0 := by decide
  have hmass :
      postKeep (evolved psCircuit).1 (nOf psCircuit) 0 (expectVal notePS0) = 0 := by
    have hev : (evolved psCircuit).1 = apply1 initState 1 (some 0) Mx := rfl
    rw [hev]
    show postKeep (apply1 initState 1 (some 0) Mx) 1 0 0 = 0
    rw [postKeep]
    rw [show (2:ℕ)^1 = 2 from rfl]
    rw [Finset.sum_range_succ, Finset.sum_range_succ, Finset.sum_range_zero]
    norm_num [apply1, initState, Mx, ZERO, ONE, cadd, cmul, C, normSq,
      Nat.testBit, h01, h11]
  exact c5_zero_mass_postselect psCircuit opts0 entropy0 notePS0 0 rfl
    (by norm_num [notePS0]) rfl le_rfl (by norm_num [nOf, psCircuit]) hmass

/-! ### Claim C9 -/

theorem find?_first_post (l1 : List Op) (nt1 : Op) (rest : List Op)
    (h1 : isPostNote nt1 = true) (hl1 : ∀ o ∈ l1, isPostNote o = false) :
    (l1 ++ nt1 :: rest).find? isPostNote = some nt1 := by
  rw [List.find?_append]
  have hnone : l1.find? isPostNote = none :=
    List.find?_eq_none.mpr (fun x hx => by rw [hl1 x hx]; simp)
  rw [hnone, List.find?_cons_of_pos _ h1]
  rfl

/-- C9: when the operation list contains several postselect notes, the one
honored is the first in the original input order of the list (the note
search runs on the unsorted list): a later-listed postselect note is inert
regardless of its tick, so deleting it leaves the entire simulation result
unchanged — in particular a postselect note with a smaller tick but a later
list position is never the one applied. -/
theorem c9_first_listed_note_wins (q : ℤ) (l1 l2 l3 : List Op) (nt1 nt2 : Op)
    (opts : Opts) (e : ℕ → ℝ)
    (h1 : isPostNote nt1 = true) (h2 : isPostNote nt2 = true)
    (hl1 : ∀ o ∈ l1, isPostNote o = false) :
    (postNoteOf ⟨q, l1 ++ nt1 :: (l2 ++ nt2 :: l3)⟩ = some nt1) ∧
    simulateCircuit ⟨q, l1 ++ nt1 :: (l2 ++ nt2 :: l3)⟩ opts e
      = simulateCircuit ⟨q, l1 ++ nt1 :: (l2 ++ l3)⟩ opts e := by
  have hnt2note : nt2.type = "note" := by
    rw [isPostNote, Bool.and_eq_true] at h2
    exact beq_iff_eq.mp h2.1
  have hnt2gate : (nt2.type == "gate") = false := by
    rw [hnt2note]
    rfl
  have hfilter : (l1 ++ nt1 :: (l2 ++ nt2 :: l3)).filter
        (fun o => o.type == "gate")
      = (l1 ++ nt1 :: (l2 ++ l3)).filter (fun o => o.type == "gate") := by
    simp only [List.filter_append, List.filter_cons, hnt2gate,
      Bool.false_eq_true, if_false]
  have hn : nOf ⟨q, l1 ++ nt1 :: (l2 ++ nt2 :: l3)⟩
      = nOf ⟨q, l1 ++ nt1 :: (l2 ++ l3)⟩ := rfl
  have hfindA : postNoteOf ⟨q, l1 ++ nt1 :: (l2 ++ nt2 :: l3)⟩ = some nt1 :=
    find?_first_post l1 nt1 _ h1 hl1
  have hfindB : postNoteOf ⟨q, l1 ++ nt1 :: (l2 ++ l3)⟩ = some nt1 :=
    find?_first_post l1 nt1 _ h1 hl1
  have hev : evolved ⟨q, l1 ++ nt1 :: (l2 ++ nt2 :: l3)⟩
      = evolved ⟨q, l1 ++ nt1 :: (l2 ++ l3)⟩ := by
    rw [evolved, evolved]
    dsimp only
    rw [foldl_evolveStep_filter]
    conv_rhs => rw [foldl_evolveStep_filter]
    simp only [sortOps]
    rw [filter_insertionSort, filter_insertionSort, hfilter, hn]
  have hpair : postPair ⟨q, l1 ++ nt1 :: (l2 ++ nt2 :: l3)⟩
      = postPair ⟨q, l1 ++ nt1 :: (l2 ++ l3)⟩ := by
    rw [postPair, postPair, hfindA, hfindB, hev, hn]
  have hprobs : probsOf ⟨q, l1 ++ nt1 :: (l2 ++ nt2 :: l3)⟩
      = probsOf ⟨q, l1 ++ nt1 :: (l2 ++ l3)⟩ := by
    rw [probsOf, probsOf, hpair, hn]
  have hamps : ampsOf ⟨q, l1 ++ nt1 :: (l2 ++ nt2 :: l3)⟩
      = ampsOf ⟨q, l1 ++ nt1 :: (l2 ++ l3)⟩ := by
    rw [ampsOf, ampsOf, hpair, hn]
  have hcounts : countsOf ⟨q, l1 ++ nt1 :: (l2 ++ nt2 :: l3)⟩ opts e
      = countsOf ⟨q, l1 ++ nt1 :: (l2 ++ l3)⟩ opts e := by
    rw [countsOf, countsOf, hprobs, hn]
  have hops : gateCount ⟨q, l1 ++ nt1 :: (l2 ++ nt2 :: l3)⟩
      = gateCount ⟨q, l1 ++ nt1 :: (l2 ++ l3)⟩ := by
    rw [gateCount_eq, gateCount_eq]
    dsimp only
    rw [hfilter]
  refine ⟨hfindA, ?_⟩
  rw [simulateCircuit, simulateCircuit]
  rw [hops, hprobs, hamps, hcounts, hev, hpair, hn]

/-- Witness for C9: two postselect notes, the later-listed one has the
smaller tick; the first-listed note (expect 1, tick 10) is found, and the
later note is inert. -/
theorem c9_first_listed_note_wins_witness :
    (postNoteOf ⟨1, [] ++ notePS1 :: ([] ++ notePS0 :: [])⟩ = some notePS1) ∧
    simulateCircuit ⟨1, [] ++ notePS1 :: ([] ++ notePS0 :: [])⟩ opts0 entropy0
      = simulateCircuit ⟨1, [] ++ notePS1 :: ([] ++ [])⟩ opts0 entropy0 :=
  c9_first_listed_note_wins 1 [] [] [] notePS1 notePS0 opts0 entropy0
    (by decide) (by decide) (fun o ho => absurd ho (List.not_mem_nil o))

/-! ### Claim C8 -/

theorem OpSim_refl (o : Op) : OpSim o o := ⟨rfl, rfl, rfl, rfl, rfl, Or.inr rfl⟩

theorem forall2_OpSim_refl (l : List Op) : List.Forall₂ OpSim l l := by
  induction l with
  | nil => exact List.Forall₂.nil
  | cons a l ih => exact List.Forall₂.cons (OpSim_refl a) ih

theorem tickLE_congr {a a' b b' : Op} (ha : OpSim a a') (hb : OpSim b b') :
    tickLE a b ↔ tickLE a' b' := by
  rw [tickLE, tickLE, ha.2.1, hb.2.1]

theorem orderedInsert_forall2 {a a' : Op} (ha : OpSim a a') :
    ∀ {l l' : List Op}, List.Forall₂ OpSim l l' →
      List.Forall₂ OpSim (List.orderedInsert tickLE a l)
        (List.orderedInsert tickLE a' l') := by
  intro l l' h
  induction h with
  | nil => exact List.Forall₂.cons ha List.Forall₂.nil
  | @cons b b' m m' hbb' hmm' ih =>
    rw [List.orderedInsert, List.orderedInsert]
    by_cases hc : tickLE a b
    · rw [if_pos hc, if_pos ((tickLE_congr ha hbb').mp hc)]
      exact List.Forall₂.cons ha (List.Forall₂.cons hbb' hmm')
    · rw [if_neg hc, if_neg (fun hc' => hc ((tickLE_congr ha hbb').mpr hc'))]
      exact List.Forall₂.cons hbb' ih

theorem insertionSort_forall2 :
    ∀ {l l' : List Op}, List.Forall₂ OpSim l l' →
      List.Forall₂ OpSim (List.insertionSort tickLE l)
        (List.insertionSort tickLE l') := by
  intro l l' h
  induction h with
  | nil => exact List.Forall₂.nil
  | cons haa' hmm' ih =>
    rw [List.insertionSort, List.insertionSort]
    exact orderedInsert_forall2 haa' ih

theorem evolveStep_congr (n : ℕ) (acc : (ℕ → Cplx) × Bool) {o o' : Op}
    (h : OpSim o o') : evolveStep n acc o = evolveStep n acc o' := by
  obtain ⟨hty, _, htg, hp, hrn, _⟩ := h
  unfold evolveStep
  rw [hty, htg, hp, hrn]

theorem foldl_forall2 (n : ℕ) :
    ∀ {l l' : List Op}, List.Forall₂ OpSim l l' →
      ∀ acc, l.foldl (evolveStep n) acc = l'.foldl (evolveStep n) acc := by
  intro l l' h
  induction h with
  | nil => intro acc; rfl
  | cons haa' _ ih =>
    intro acc
    rw [List.foldl_cons, List.foldl_cons, evolveStep_congr n acc haa']
    exact ih _

theorem isPostNote_congr {o o' : Op} (h : OpSim o o') :
    isPostNote o = isPostNote o' := by
  obtain ⟨hty, _, _, _, _, hlast⟩ := h
  rw [isPostNote, isPostNote, hty]
  rcases hlast with hg | hr
  · rw [hty] at hg
    rw [hg]
    rfl
  · rw [hr]

theorem find?_forall2 :
    ∀ {l l' : List Op}, List.Forall₂ OpSim l l' →
      (l.find? isPostNote = none ∧ l'.find? isPostNote = none) ∨
      (∃ o o', l.find? isPostNote = some o ∧ l'.find? isPostNote = some o'
        ∧ OpSim o o') := by
  intro l l' h
  induction h with
  | nil => exact Or.inl ⟨rfl, rfl⟩
  | @cons a b m m' hab hmm' ih =>
    cases hpa : isPostNote a
    · have hpb : isPostNote b = false := by rw [← isPostNote_congr hab]; exact hpa
      rw [List.find?_cons_of_neg _ (by simp [hpa]),
        List.find?_cons_of_neg _ (by simp [hpb])]
      exact ih
    · have hpb : isPostNote b = true := by rw [← isPostNote_congr hab]; exact hpa
      exact Or.inr ⟨a, b, List.find?_cons_of_pos _ hpa,
        List.find?_cons_of_pos _ hpb, hab⟩

theorem filter_gate_length_congr :
    ∀ {l l' : List Op}, List.Forall₂ OpSim l l' →
      (l.filter (fun o => o.type == "gate")).length
        = (l'.filter (fun o => o.type == "gate")).length := by
  intro l l' h
  induction h with
  | nil => rfl
  | @cons a b m m' hab _ ih =>
    rw [List.filter_cons, List.filter_cons, hab.1]
    by_cases hg : (b.type == "gate") = true
    · rw [if_pos hg, if_pos hg, List.length_cons, List.length_cons, ih]
    · rw [if_neg hg, if_neg hg]
      exact ih

theorem evolved_congr {q : ℤ} {L L' : List Op}
    (h : List.Forall₂ OpSim L L') :
    evolved ⟨q, L⟩ = evolved ⟨q, L'⟩ := by
  rw [evolved, evolved]
  dsimp only
  simp only [sortOps]
  exact foldl_forall2 _ (insertionSort_forall2 h) _

theorem postPair_congr {q : ℤ} {L L' : List Op}
    (h : List.Forall₂ OpSim L L') :
    postPair ⟨q, L⟩ = postPair ⟨q, L'⟩ := by
  have hev := evolved_congr (q := q) h
  have hn : nOf ⟨q, L⟩ = nOf ⟨q, L'⟩ := rfl
  rw [postPair, postPair, hev, hn]
  show (match postNoteOf ⟨q, L⟩ with
    | some nt => _ | none => _) = (match postNoteOf ⟨q, L'⟩ with
    | some nt => _ | none => _)
  rcases find?_forall2 h with ⟨ha, hb⟩ | ⟨o, o', ha, hb, hsim⟩
  · rw [show postNoteOf ⟨q, L⟩ = none from ha,
      show postNoteOf ⟨q, L'⟩ = none from hb]
  · rw [show postNoteOf ⟨q, L⟩ = some o from ha,
      show postNoteOf ⟨q, L'⟩ = some o' from hb]
    obtain ⟨_, _, htg, hp, _, _⟩ := hsim
    have hex : expectVal o = expectVal o' := by rw [expectVal, expectVal, hp]
    dsimp only
    rw [htg, hex]

theorem simulateCircuit_congr {q : ℤ} {L L' : List Op}
    (h : List.Forall₂ OpSim L L') (opts : Opts) (e : ℕ → ℝ) :
    simulateCircuit ⟨q, L⟩ opts e = simulateCircuit ⟨q, L'⟩ opts e := by
  have hev := evolved_congr (q := q) h
  have hpair := postPair_congr (q := q) h
  have hops : gateCount ⟨q, L⟩ = gateCount ⟨q, L'⟩ := by
    rw [gateCount_eq, gateCount_eq]
    exact filter_gate_length_congr h
  have hn : nOf ⟨q, L⟩ = nOf ⟨q, L'⟩ := rfl
  have hprobs : probsOf ⟨q, L⟩ = probsOf ⟨q, L'⟩ := by
    rw [probsOf, probsOf, hpair, hn]
  have hamps : ampsOf ⟨q, L⟩ = ampsOf ⟨q, L'⟩ := by
    rw [ampsOf, ampsOf, hpair, hn]
  have hcounts : countsOf ⟨q, L⟩ opts e = countsOf ⟨q, L'⟩ opts e := by
    rw [countsOf, countsOf, hprobs, hn]
  rw [simulateCircuit, simulateCircuit, hops, hprobs, hamps, hcounts, hev, hpair,
    hn]

/-- C8: the dispatch uppercases the reference and strips a leading
"gate." prefix, so any case variant and the namespaced spelling of a gate
reference select the same kernel: (i) the four example spellings "X", "x",
"gate.x", "GATE.X" normalize to the same key; (ii) references that agree
after uppercasing normalize identically; (iii) replacing a gate operation's
reference by any string with the same normalized key yields an identical
simulation result. -/
theorem c8_ref_spelling_invariance :
    (refNormOf "X" = "X" ∧ refNormOf "x" = "X" ∧ refNormOf "gate.x" = "X"
      ∧ refNormOf "GATE.X" = "X") ∧
    (∀ s s' : String, jsToUpper s = jsToUpper s' →
      refNormOf s = refNormOf s') ∧
    (∀ (q : ℤ) (l1 l2 : List Op) (op : Op) (r' : String)
      (opts : Opts) (e : ℕ → ℝ), op.type = "gate" →
      refNormOf op.ref = refNormOf r' →
      simulateCircuit ⟨q, l1 ++ op :: l2⟩ opts e
        = simulateCircuit ⟨q, l1 ++ { op with ref := r' } :: l2⟩ opts e) := by
  refine ⟨⟨by decide, by decide, by decide, by decide⟩, ?_, ?_⟩
  · intro s s' hss
    rw [refNormOf, refNormOf, hss]
  · intro q l1 l2 op r' opts e hty hnorm
    have hsim : OpSim op { op with ref := r' } :=
      ⟨rfl, rfl, rfl, rfl, hnorm, Or.inl hty⟩
    exact simulateCircuit_congr
      (List.rel_append (forall2_OpSim_refl l1)
        (List.Forall₂.cons hsim (forall2_OpSim_refl l2))) opts e

/-- Witness for C8: replacing the "H" of the Bell circuit by "gate.h"
yields the identical simulation result. -/
theorem c8_ref_spelling_invariance_witness :
    simulateCircuit ⟨2, [] ++ opH :: [opCX]⟩ opts0 entropy0
      = simulateCircuit ⟨2, [] ++ { opH with ref := "gate.h" } :: [opCX]⟩
          opts0 entropy0 :=
  c8_ref_spelling_invariance.2.2 2 [] [opCX] opH "gate.h" opts0 entropy0
    rfl (by decide)
